import Mathlib

set_option autoImplicit false

open BigOperators

namespace TEI

/-! Shallow embedding of the batched BERT inference engine
(`backends/candle/src/lib.rs`, `models.rs`, `models/flash_bert.rs`).
Device tensors of shape `[T, H]` are modelled as lists of rows; a row is a
function `Fin H → ℚ` (exact rationals stand in for device floats, since every
claim here is about index arithmetic, not rounding). Fallible tensor
operations return `Option`. -/

/-- Row vector of hidden size `H`. -/
abbrev Vec (H : Nat) := Fin H → ℚ

/-- Packed batch, as in `text_embeddings_backend_core::Batch` consumed by
`FlashBertModel::forward`. -/
structure Batch where
  inputIds : List Nat
  tokenTypeIds : List Nat
  positionIds : List Nat
  cumulativeSeqLengths : List Nat
  maxLength : Nat
  pooledIndices : List Nat
  rawIndices : List Nat

/-- Number of requests in the batch (`Batch::len`, i.e.
`cumulative_seq_lengths.len() - 1`). -/
def Batch.len (b : Batch) : Nat := b.cumulativeSeqLengths.length - 1

/-- Token range length of request `i`, from `cumulative_seq_lengths`. -/
def requestLength (b : Batch) (i : Nat) : Nat :=
  b.cumulativeSeqLengths.getD (i + 1) 0 - b.cumulativeSeqLengths.getD i 0

/-- Start offset of request `i`, from `cumulative_seq_lengths`. -/
def startOffset (b : Batch) (i : Nat) : Nat :=
  b.cumulativeSeqLengths.getD i 0

/-- Model of `Tensor::narrow` along dimension 0: errors when the range
overruns the tensor. -/
def narrow {α : Type} (rows : List α) (start len : Nat) : Option (List α) :=
  if start + len ≤ rows.length then some ((rows.drop start).take len) else none

/-- Model of `Tensor::index_select` along dimension 0: errors on any
out-of-range index. -/
def indexSelect {α : Type} (rows : List α) : List Nat → Option (List α)
  | [] => some []
  | i :: is => do
    let r ← rows[i]?
    let rest ← indexSelect rows is
    pure (r :: rest)

/-- Contiguous rows `[s, e)` of a row list (total; used to state results). -/
def sliceRows {α : Type} (rows : List α) (s e : Nat) : List α :=
  (rows.drop s).take (e - s)

/-- Pooling mode (`text_embeddings_backend_core::Pool`). -/
inductive Pool where
  | cls
  | mean
deriving DecidableEq

/-- Pointwise division of a row by a scalar (tensor divided by scalar). -/
def divRow {H : Nat} (v : Vec H) (c : ℚ) : Vec H := fun j => v j / c

/-- Columnwise sum of rows (`Tensor::sum_keepdim(0)` on `[T, H]`). -/
def sumRows {H : Nat} (rows : List (Vec H)) : Vec H := rows.sum

/-- Elementwise arithmetic mean of a list of rows (specification notion). -/
def meanRows {H : Nat} (rows : List (Vec H)) : Vec H :=
  divRow (sumRows rows) (rows.length : ℚ)

/-- CLS pooling branch of `FlashBertModel::forward`
(flash_bert.rs lines 386-406): narrow the first `batch_size` start offsets
out of `cu_seqlens`, gather them through `pooled_indices` when raw requests
are present, then select those rows of the encoder output. -/
def clsPool {H : Nat} (outputs : List (Vec H)) (b : Batch) : Option (List (Vec H)) := do
  let clsIndices ← narrow b.cumulativeSeqLengths 0 b.len
  let clsIndices ←
    if b.rawIndices = [] then pure clsIndices
    else indexSelect clsIndices b.pooledIndices
  indexSelect outputs clsIndices

/-- Per-request loop of the mean pooling branch (flash_bert.rs lines 411-423):
for each pooled index, narrow that request's token range, sum it and divide by
its length. -/
def meanLoop {H : Nat} (outputs : List (Vec H)) (cu : List Nat) :
    List Nat → Option (List (Vec H))
  | [] => some []
  | i :: is => do
    let start ← cu[i]?
    let stop ← cu[i + 1]?
    let len := stop - start
    let rows ← narrow outputs start len
    let rest ← meanLoop outputs cu is
    pure (divRow (sumRows rows) (len : ℚ) :: rest)

/-- Mean pooling branch of `FlashBertModel::forward`
(flash_bert.rs lines 407-430): per-request loop when the batch holds more than
one request, otherwise one sum over all tokens divided by `max_length`. -/
def meanPool {H : Nat} (outputs : List (Vec H)) (b : Batch) : Option (List (Vec H)) :=
  if 1 < b.len then meanLoop outputs b.cumulativeSeqLengths b.pooledIndices
  else some [divRow (sumRows outputs) (b.maxLength : ℚ)]

/-- Pooled-output part of `FlashBertModel::forward`
(flash_bert.rs lines 380-434). -/
def pooledPart {H : Nat} (pool : Pool) (outputs : List (Vec H)) (b : Batch) :
    Option (Option (List (Vec H))) :=
  if b.pooledIndices = [] then some none
  else
    match pool with
    | Pool.cls => (clsPool outputs b).map some
    | Pool.mean => (meanPool outputs b).map some

/-- Token-position list built for raw requests (flash_bert.rs lines 439-450):
for each raw index, push every token position of that request's range. -/
def tokenRanges (cu : List Nat) : List Nat → Option (List Nat)
  | [] => some []
  | i :: is => do
    let start ← cu[i]?
    let stop ← cu[i + 1]?
    let rest ← tokenRanges cu is
    pure (List.range' start (stop - start) ++ rest)

/-- Raw-output part of `FlashBertModel::forward`
(flash_bert.rs lines 436-463). -/
def rawPart {H : Nat} (outputs : List (Vec H)) (b : Batch) :
    Option (Option (List (Vec H))) :=
  if b.rawIndices = [] then some none
  else
    if 1 < b.len ∧ ¬b.pooledIndices = [] then do
      let finalIndices ← tokenRanges b.cumulativeSeqLengths b.rawIndices
      let sel ← indexSelect outputs finalIndices
      pure (some sel)
    else some (some outputs)

/-- Extraction stage of `FlashBertModel::forward` run on the encoder output
`outputs`: pooled part first, then raw part, as in the source. -/
def forwardExtract {H : Nat} (pool : Pool) (outputs : List (Vec H)) (b : Batch) :
    Option (Option (List (Vec H)) × Option (List (Vec H))) := do
  let pe ← pooledPart pool outputs b
  let re ← rawPart outputs b
  pure (pe, re)

/-- Per-request embedding result (`text_embeddings_backend_core::Embedding`). -/
inductive Embedding (H : Nat) where
  | Pooled (v : Vec H)
  | All (vs : List (Vec H))

/-- The result map of `CandleBackend::embed`, modelled as a partial function
from request index to embedding (a `HashMap` keyed by request index). -/
def EmbMap (H : Nat) := Nat → Option (Embedding H)

/-- Map insertion (`HashMap::insert`). -/
def mapInsert {H : Nat} (m : EmbMap H) (k : Nat) (v : Embedding H) : EmbMap H :=
  fun j => if j = k then some v else m j

/-- Insertion loop for pooled results (lib.rs lines 184-186): zip
`pooled_indices` with the pooled rows. -/
def insertPooled {H : Nat} : List (Nat × Vec H) → EmbMap H → EmbMap H
  | [], m => m
  | (i, e) :: rest, m => insertPooled rest (mapInsert m i (Embedding.Pooled e))

/-- Insertion loop for raw results (lib.rs lines 188-194): advance a running
offset through the raw buffer, slicing each raw request's own length. -/
def insertRaw {H : Nat} (lens : List Nat) (rawRows : List (Vec H)) :
    List Nat → Nat → EmbMap H → Option (EmbMap H)
  | [], _, m => some m
  | i :: is, cum, m => do
    let len ← lens[i]?
    let e ← narrow rawRows cum len
    insertRaw lens rawRows is (cum + len) (mapInsert m i (Embedding.All e))

/-- Per-request input lengths (lib.rs lines 161-165). -/
def inputLengths (b : Batch) : List Nat :=
  (List.range b.len).map (requestLength b)

/-- Model of `CandleBackend::embed` (lib.rs lines 155-197), with the encoder
output `outputs` abstracted: compute input lengths, run the forward
extraction, then insert pooled and raw per-request results. -/
def backendEmbed {H : Nat} (pool : Pool) (outputs : List (Vec H)) (b : Batch) :
    Option (EmbMap H) := do
  let lens := inputLengths b
  let pr ← forwardExtract pool outputs b
  let pooledRows := pr.1.getD []
  let rawRows := pr.2.getD []
  let m := insertPooled (b.pooledIndices.zip pooledRows) (fun _ => none)
  insertRaw lens rawRows b.rawIndices 0 m

/-- Inference-time failures of `predict`. -/
inductive InferErr where
  | unsupported (msg : String)
  | assertFailed (msg : String)
  | failed
deriving DecidableEq

/-- The parts of `FlashBertModel` that `predict` consults: the pooling mode and
the optional classification head (a fallible map from pooled rows to logits). -/
structure FlashBertModelM (H : Nat) where
  pool : Pool
  classifier : Option (List (Vec H) → Option (List (Vec H)))

/-- Model of `FlashBertModel::predict` (flash_bert.rs lines 477-487) run on
encoder output `outputs`: bail when no classifier is configured, otherwise run
the forward pass and unwrap the pooled output with a panicking `expect`,
modelled as the `assertFailed` error. -/
def predictM {H : Nat} (m : FlashBertModelM H) (outputs : List (Vec H)) (b : Batch) :
    Except InferErr (List (Vec H)) :=
  match m.classifier with
  | none => Except.error (InferErr.unsupported ("`predict` is not implemented for this model"))
  | some cls =>
    match forwardExtract m.pool outputs b with
    | none => Except.error InferErr.failed
    | some pr =>
      match pr.1 with
      | none => Except.error (InferErr.assertFailed ("pooled_embeddings is empty. This is a bug."))
      | some p =>
        match cls p with
        | none => Except.error InferErr.failed
        | some r => Except.ok r

/-- Pairing of the embeddings and encoder load results for one namespace
candidate, mirroring the tuple match in flash_bert.rs lines 322-344: both must
succeed; when either fails, the embeddings error is captured first. -/
def tryPair {E A B : Type} (x : Except E A) (y : Except E B) : Except E (A × B) :=
  match x, y with
  | Except.ok a, Except.ok b => Except.ok (a, b)
  | Except.error e, _ => Except.error e
  | _, Except.error e => Except.error e

/-- Weight-namespace fallback of `FlashBertModel::load`
(flash_bert.rs lines 322-344): try the bare names, then the names under the
configured `model_type` (default "bert"), then under "roberta"; when all three
candidates fail, return the error captured from the first attempt. `embAt` and
`encAt` abstract `BertEmbeddings::load` and `BertEncoder::load` at a given
`VarBuilder` path. -/
def loadEmbEnc {E A B : Type} (embAt : String → Except E A) (encAt : String → Except E B)
    (modelType : Option String) : Except E (A × B) :=
  match tryPair (embAt ("embeddings")) (encAt ("encoder")) with
  | Except.ok r => Except.ok r
  | Except.error err =>
    let mt := modelType.getD ("bert")
    match tryPair (embAt (mt ++ (".embeddings"))) (encAt (mt ++ (".encoder"))) with
    | Except.ok r => Except.ok r
    | Except.error _ =>
      match tryPair (embAt ("roberta.embeddings")) (encAt ("roberta.encoder")) with
      | Except.ok r => Except.ok r
      | Except.error _ => Except.error err

/-- Device kinds (`candle::Device`). -/
inductive DeviceM where
  | cpu
  | cuda
  | metal
deriving DecidableEq

/-- Weight dtypes accepted by the backend (`DType::F16` / `DType::F32`). -/
inductive DTypeM where
  | f16
  | f32
deriving DecidableEq

/-- Position-embedding styles (`PositionEmbeddingType`). -/
inductive PosEmbM where
  | absolute
  | alibi
deriving DecidableEq

/-- Guard checks at the top of `FlashBertModel::load`
(flash_bert.rs lines 288-301): device must be CUDA, dtype F16, position
embeddings absolute; each violation bails at load time. -/
def flashBertChecks (device : DeviceM) (dtype : DTypeM) (pos : PosEmbM) :
    Except String Unit :=
  match device with
  | DeviceM.cuda =>
    if dtype ≠ DTypeM.f16 then Except.error ("FlashBert requires DType::F16")
    else if pos ≠ PosEmbM.absolute then
      Except.error ("FlashBert only supports absolute position embeddings")
    else Except.ok ()
  | _ => Except.error ("FlashBert requires Cuda")

/-- Model of `FlashBertModel::load` as far as construction-time failure is
concerned: the guard checks run first, then the weight-namespace fallback. -/
def flashBertLoad {A B : Type} (device : DeviceM) (dtype : DTypeM) (pos : PosEmbM)
    (embAt : String → Except String A) (encAt : String → Except String B)
    (modelType : Option String) : Except String (A × B) :=
  match flashBertChecks device dtype pos with
  | Except.error msg => Except.error msg
  | Except.ok _ => loadEmbEnc embAt encAt modelType

/-- Inputs to the load-time model selection in `CandleBackend::new`
(lib.rs lines 91-140). -/
structure SelectCtx where
  device : DeviceM
  dtype : DTypeM
  pos : PosEmbM
  cudaFeature : Bool
  flashAttnAnyFeature : Bool
  flashAttnV2Feature : Bool
  incompatibleCap : Bool
  useFlashAttentionEnv : Bool

/-- Model variants the dispatcher can construct. -/
inductive Variant where
  | bert
  | jinaBert
  | flashBert
  | flashJinaBert
deriving DecidableEq

/-- Load-time variant selection of `CandleBackend::new`
(lib.rs lines 91-140): on CPU/Metal pick the generic models; on CUDA fail fast
on an incompatible compute capability, then take the fused FlashBert path only
when the flash-attention feature is compiled in, the dtype is F16, position
embeddings are absolute, and the `USE_FLASH_ATTENTION` override holds (the
lowercased environment variable, default "True", equals "true"). -/
def selectVariant (c : SelectCtx) : Except String Variant :=
  match c.device with
  | DeviceM.cpu | DeviceM.metal =>
    if c.pos = PosEmbM.alibi then Except.ok Variant.jinaBert
    else Except.ok Variant.bert
  | DeviceM.cuda =>
    if ¬c.cudaFeature then Except.error ("`cuda` feature is not enabled")
    else if c.incompatibleCap then
      Except.error ("Runtime compute cap is not compatible with compile time compute cap")
    else if c.flashAttnAnyFeature ∧ c.dtype = DTypeM.f16 ∧ c.pos = PosEmbM.absolute ∧
        c.useFlashAttentionEnv then
      Except.ok Variant.flashBert
    else if c.flashAttnV2Feature ∧ c.dtype = DTypeM.f16 ∧ c.pos = PosEmbM.alibi ∧
        c.useFlashAttentionEnv then
      Except.ok Variant.flashJinaBert
    else if c.pos = PosEmbM.alibi then Except.ok Variant.jinaBert
    else Except.ok Variant.bert

deriving instance DecidableEq for Except

/-- Model of `Tensor::add` on row lists: shape mismatch is an error. -/
def addRowsOpt {H : Nat} (a b : List (Vec H)) : Option (List (Vec H)) :=
  if a.length = b.length then some (List.zipWith (· + ·) a b) else none

/-- Model of `BertEmbeddings::forward` (flash_bert.rs lines 54-71) with the
normalization layer left fully abstract: look up the word and token-type
tables, add them, look up the position table, and hand the sum together with
the position lookup directly to the two-operand `LayerNorm::forward` `ln`. -/
def bertEmbeddingsForward {H : Nat}
    (ln : List (Vec H) → List (Vec H) → Option (List (Vec H)))
    (wordT typeT posT : List (Vec H))
    (inputIds typeIds posIds : List Nat) : Option (List (Vec H)) := do
  let w ← indexSelect wordT inputIds
  let t ← indexSelect typeT typeIds
  let embeddings ← addRowsOpt w t
  let p ← indexSelect posT posIds
  ln embeddings p

/-! Fused versus generic attention. `flash_attn_varlen` and the generic
masked-attention model (models/bert.rs) are external to the given source
files, so both strategies are modelled from the spec, over exact rationals:
the softmax exponential is abstracted as a kernel function `e` and the
softmax scale as `scale` (the source sets it to `1/sqrt(head_dim)`, a
floating-point constant), both shared by the two sides. -/

/-- Dot product of two rows. -/
def dotF {H : Nat} (q k : Vec H) : ℚ := ∑ j, q j * k j

/-- Modelled from the spec: softmax weights over a list of scores, with the
exponential abstracted as `e`. -/
def softmaxW (e : ℚ → ℚ) (s : List ℚ) : List ℚ :=
  s.map (fun x => e x / (s.map e).sum)

/-- One attention output row: softmax-weighted combination of the value rows,
scores scaled by `scale`, no causal mask (bidirectional). -/
def attnRow {H : Nat} (e : ℚ → ℚ) (scale : ℚ) (q : Vec H) (K V : List (Vec H)) :
    Vec H :=
  (((softmaxW e (K.map (fun kj => scale * dotF q kj))).zip V).map
    (fun p => p.1 • p.2)).sum

/-- Bidirectional attention over one contiguous segment. -/
def blockAttn {H : Nat} (e : ℚ → ℚ) (scale : ℚ) (Q K V : List (Vec H)) :
    List (Vec H) :=
  Q.map (fun q => attnRow e scale q K V)

/-- Consecutive segment boundaries read off cumulative sequence lengths. -/
def segmentsOf (cu : List Nat) : List (Nat × Nat) := cu.zip cu.tail

/-- Modelled from the spec: the fused variable-length attention strategy
(`flash_attn_varlen`, not in src/): attention is computed independently on
each segment of the packed buffer delimited by `cumulative_seq_lengths`, and
the per-segment outputs are concatenated. -/
def varlenAttn {H : Nat} (e : ℚ → ℚ) (scale : ℚ) (q k v : List (Vec H))
    (cu : List Nat) : List (Vec H) :=
  ((segmentsOf cu).map (fun se =>
    blockAttn e scale (sliceRows q se.1 se.2) (sliceRows k se.1 se.2)
      (sliceRows v se.1 se.2))).flatten

/-- Index of the segment containing token position `i`, if any. -/
def segOf (cu : List Nat) (i : Nat) : Option Nat :=
  (List.range (cu.length - 1)).find?
    (fun m => decide (cu.getD m 0 ≤ i) && decide (i < cu.getD (m + 1) 0))

/-- Whether token positions `i` and `j` lie in the same segment: the
attention mask of the generic strategy, under which tokens attend only within
their own request. -/
def sameSegB (cu : List Nat) (i j : Nat) : Bool :=
  match segOf cu i, segOf cu j with
  | some a, some b => decide (a = b)
  | _, _ => false

/-- Modelled from the spec: one row of the generic masked attention on the
packed buffer (models/bert.rs, not in src/): scores over all key positions,
masked softmax restricted to the allowed positions (a masked score
contributes zero weight), then the weighted sum of value rows. -/
def maskedRow {H : Nat} (e : ℚ → ℚ) (scale : ℚ) (q : Vec H) (k v : List (Vec H))
    (mask : Nat → Bool) : Vec H :=
  (((List.range k.length).filter mask).map (fun j =>
    (e (scale * dotF q (k.getD j 0)) /
      (((List.range k.length).filter mask).map
        (fun j' => e (scale * dotF q (k.getD j' 0)))).sum) • v.getD j 0)).sum

/-- Modelled from the spec: the generic masked-attention strategy applied to
the packed buffer, with the same-request mask. -/
def maskedAttn {H : Nat} (e : ℚ → ℚ) (scale : ℚ) (q k v : List (Vec H))
    (cu : List Nat) : List (Vec H) :=
  (List.range q.length).map (fun i =>
    maskedRow e scale (q.getD i 0) k v (fun j => sameSegB cu i j))

/-- Concrete fixture: a stand-in softmax kernel. -/
def wE : ℚ → ℚ := fun x => x + 1

/-- Concrete fixture: encoder output with three token rows, hidden size 1. -/
def wOutputs : List (Vec 1) := [fun _ => 0, fun _ => 1, fun _ => 2]

/-- Concrete fixture: a two-request batch (lengths 2 and 1), request 1 pooled,
request 0 raw. -/
def wBatch : Batch :=
  { inputIds := [5, 6, 7]
    tokenTypeIds := [0, 0, 0]
    positionIds := [0, 1, 0]
    cumulativeSeqLengths := [0, 2, 3]
    maxLength := 2
    pooledIndices := [1]
    rawIndices := [0] }

/-- Concrete fixture: identity classification head. -/
def wCls : List (Vec 1) → Option (List (Vec 1)) := fun rows => some rows

/-- Concrete fixture: model with no classification head. -/
def wModelNoHead : FlashBertModelM 1 := ⟨Pool.cls, none⟩

/-- Concrete fixture: model with a classification head. -/
def wModelHead : FlashBertModelM 1 := ⟨Pool.cls, some wCls⟩

/-- Concrete fixture: elementwise-adding stand-in for the two-operand
normalization layer. -/
def wLn : List (Vec 1) → List (Vec 1) → Option (List (Vec 1)) :=
  fun a b => some (List.zipWith (· + ·) a b)

/-- Concrete fixture: selection context eligible for the fused FlashBert
path. -/
def wSelectCtx : SelectCtx :=
  { device := DeviceM.cuda
    dtype := DTypeM.f16
    pos := PosEmbM.absolute
    cudaFeature := true
    flashAttnAnyFeature := true
    flashAttnV2Feature := true
    incompatibleCap := false
    useFlashAttentionEnv := true }

/-! ### Helper lemmas -/

theorem getElem?_eq_some_getD {α : Type} (l : List α) (d : α) {i : Nat}
    (h : i < l.length) : l[i]? = some (l.getD i d) := by
  rw [List.getElem?_eq_getElem h]
  simp [List.getD_eq_getElem?_getD, List.getElem?_eq_getElem h]

theorem indexSelect_eq_map {α : Type} (rows : List α) (d : α) :
    ∀ is : List Nat, (∀ i ∈ is, i < rows.length) →
      indexSelect rows is = some (is.map (fun i => rows.getD i d))
  | [], _ => rfl
  | i :: is, h => by
    have hi : i < rows.length := h i (by simp)
    have ih := indexSelect_eq_map rows d is (fun j hj => h j (by simp [hj]))
    simp only [indexSelect, Option.bind_eq_bind]
    rw [getElem?_eq_some_getD rows d hi, ih]
    simp only [Option.some_bind, Option.pure_def, List.map_cons]

theorem indexSelect_length {α : Type} (rows : List α) :
    ∀ {is : List Nat} {l : List α}, indexSelect rows is = some l → l.length = is.length
  | [], l, h => by
    simp only [indexSelect, Option.some.injEq] at h
    subst h; rfl
  | i :: is, l, h => by
    simp only [indexSelect, Option.bind_eq_bind] at h
    cases hr : rows[i]? with
    | none => rw [hr] at h; simp at h
    | some r =>
      rw [hr] at h
      cases hrest : indexSelect rows is with
      | none => rw [hrest] at h; simp at h
      | some rest =>
        rw [hrest] at h
        simp only [Option.some_bind, Option.pure_def, Option.some.injEq] at h
        subst h
        simp [indexSelect_length rows hrest]

theorem take_eq_map_range {α : Type} (d : α) :
    ∀ (n : Nat) (l : List α), n ≤ l.length →
      l.take n = (List.range n).map (fun i => l.getD i d)
  | 0, l, _ => by simp
  | n + 1, [], h => by simp at h
  | n + 1, a :: l, h => by
    rw [List.range_succ_eq_map]
    simp only [List.take_succ_cons, List.map_cons, List.getD_cons_zero, List.map_map]
    have ih := take_eq_map_range d n l (by simpa using h)
    rw [ih]
    rfl

theorem getD_take {α : Type} (l : List α) (d : α) {i n : Nat} (h : i < n) :
    (l.take n).getD i d = l.getD i d := by
  simp [List.getD_eq_getElem?_getD, List.getElem?_take, h]

theorem narrow_eq_some {α : Type} (rows : List α) {s len : Nat}
    (h : s + len ≤ rows.length) :
    narrow rows s len = some ((rows.drop s).take len) := by
  simp [narrow, h]

theorem getD_drop {α : Type} (l : List α) (d : α) (s i : Nat) :
    (l.drop s).getD i d = l.getD (s + i) d := by
  simp [List.getD_eq_getElem?_getD, List.getElem?_drop]

theorem slice_eq_map_range' {α : Type} (d : α) (rows : List α) {s n : Nat}
    (h : s + n ≤ rows.length) :
    (rows.drop s).take n = (List.range' s n).map (fun i => rows.getD i d) := by
  rw [take_eq_map_range d n (rows.drop s) (by simp [List.length_drop]; omega)]
  rw [List.range'_eq_map_range, List.map_map]
  apply List.map_congr_left
  intro i _
  simp only [Function.comp]
  rw [getD_drop]

theorem indexSelect_range' {α : Type} (d : α) (rows : List α) {s n : Nat}
    (h : s + n ≤ rows.length) :
    indexSelect rows (List.range' s n) = some ((rows.drop s).take n) := by
  rw [indexSelect_eq_map rows d _ ?hb, slice_eq_map_range' d rows h]
  case hb =>
    intro i hi
    rw [List.mem_range'_1] at hi
    omega

theorem indexSelect_append_some {α : Type} (rows : List α) :
    ∀ {xs ys : List Nat} {a c : List α}, indexSelect rows xs = some a →
      indexSelect rows ys = some c → indexSelect rows (xs ++ ys) = some (a ++ c)
  | [], _, a, c, hx, hy => by
    simp only [indexSelect, Option.some.injEq] at hx
    subst hx
    simpa using hy
  | x :: xs, ys, a, c, hx, hy => by
    rw [List.cons_append]
    simp only [indexSelect, Option.bind_eq_bind] at hx ⊢
    cases hr : rows[x]? with
    | none => rw [hr] at hx; simp at hx
    | some r =>
      rw [hr] at hx
      cases hxs : indexSelect rows xs with
      | none => rw [hxs] at hx; simp at hx
      | some arest =>
        rw [hxs] at hx
        simp only [Option.some_bind, Option.pure_def, Option.some.injEq] at hx
        subst hx
        rw [indexSelect_append_some rows hxs hy]
        simp

theorem meanLoop_spec {H : Nat} (outputs : List (Vec H)) (cu : List Nat) :
    ∀ is : List Nat,
      (∀ i ∈ is, i + 1 < cu.length ∧ cu.getD i 0 ≤ cu.getD (i + 1) 0 ∧
        cu.getD (i + 1) 0 ≤ outputs.length) →
      meanLoop outputs cu is = some (is.map (fun i =>
        meanRows (sliceRows outputs (cu.getD i 0) (cu.getD (i + 1) 0))))
  | [], _ => rfl
  | i :: is, h => by
    obtain ⟨h1, h2, h3⟩ := h i (by simp)
    have ih := meanLoop_spec outputs cu is (fun j hj => h j (by simp [hj]))
    have hstart : cu[i]? = some (cu.getD i 0) :=
      getElem?_eq_some_getD cu 0 (by omega)
    have hstop : cu[i + 1]? = some (cu.getD (i + 1) 0) :=
      getElem?_eq_some_getD cu 0 h1
    have hnar : narrow outputs (cu.getD i 0) (cu.getD (i + 1) 0 - cu.getD i 0) =
        some ((outputs.drop (cu.getD i 0)).take (cu.getD (i + 1) 0 - cu.getD i 0)) :=
      narrow_eq_some outputs (by omega)
    have hlen : ((outputs.drop (cu.getD i 0)).take
        (cu.getD (i + 1) 0 - cu.getD i 0)).length = cu.getD (i + 1) 0 - cu.getD i 0 := by
      simp only [List.length_take, List.length_drop]
      omega
    have heq : meanRows (sliceRows outputs (cu.getD i 0) (cu.getD (i + 1) 0)) =
        divRow (sumRows ((outputs.drop (cu.getD i 0)).take
          (cu.getD (i + 1) 0 - cu.getD i 0)))
          ((cu.getD (i + 1) 0 - cu.getD i 0 : Nat) : ℚ) := by
      unfold meanRows sliceRows
      rw [hlen]
    simp only [meanLoop, Option.bind_eq_bind, hstart, hstop, Option.some_bind, hnar,
      ih, Option.pure_def, List.map_cons, Option.some.injEq, heq]

theorem tokenRanges_spec (cu : List Nat) :
    ∀ is : List Nat, (∀ i ∈ is, i + 1 < cu.length) →
      tokenRanges cu is = some ((is.map (fun i =>
        List.range' (cu.getD i 0) (cu.getD (i + 1) 0 - cu.getD i 0))).flatten)
  | [], _ => rfl
  | i :: is, h => by
    have h1 : i + 1 < cu.length := h i (by simp)
    have ih := tokenRanges_spec cu is (fun j hj => h j (by simp [hj]))
    simp only [tokenRanges, Option.bind_eq_bind,
      getElem?_eq_some_getD cu 0 (show i < cu.length by omega),
      getElem?_eq_some_getD cu 0 h1, Option.some_bind, ih, Option.pure_def,
      List.map_cons, List.flatten_cons]

theorem indexSelect_join_ranges {α : Type} (d : α) (outputs : List α) (cu : List Nat) :
    ∀ is : List Nat,
      (∀ i ∈ is, i + 1 < cu.length ∧ cu.getD i 0 ≤ cu.getD (i + 1) 0 ∧
        cu.getD (i + 1) 0 ≤ outputs.length) →
      indexSelect outputs ((is.map (fun i =>
        List.range' (cu.getD i 0) (cu.getD (i + 1) 0 - cu.getD i 0))).flatten) =
      some ((is.map (fun i =>
        sliceRows outputs (cu.getD i 0) (cu.getD (i + 1) 0))).flatten)
  | [], _ => rfl
  | i :: is, h => by
    obtain ⟨h1, h2, h3⟩ := h i (by simp)
    have ih := indexSelect_join_ranges d outputs cu is (fun j hj => h j (by simp [hj]))
    simp only [List.map_cons, List.flatten_cons]
    exact indexSelect_append_some outputs (indexSelect_range' d outputs (by omega)) ih

/-! ### Claim theorems -/

/-- C1: under CLS pooling with non-empty `pooled_indices`, the pooled output
rows are exactly the encoder-output rows at the start offsets
`cumulative_seq_lengths[i]`; the offsets are taken for all requests in batch
order when `raw_indices` is empty, and gathered through `pooled_indices`
(in their order) otherwise. -/
theorem claim_C1 {H : Nat} (outputs : List (Vec H)) (b : Batch)
    (hp : b.pooledIndices ≠ [])
    (hR : b.len < b.cumulativeSeqLengths.length)
    (hb : ∀ i ∈ (if b.rawIndices = [] then List.range b.len else b.pooledIndices),
      i < b.len ∧ b.cumulativeSeqLengths.getD i 0 < outputs.length) :
    pooledPart Pool.cls outputs b =
      some (some ((if b.rawIndices = [] then List.range b.len else b.pooledIndices).map
        (fun i => outputs.getD (b.cumulativeSeqLengths.getD i 0) (0 : Vec H)))) := by
  have hnarrow : narrow b.cumulativeSeqLengths 0 b.len =
      some (b.cumulativeSeqLengths.take b.len) := by
    rw [narrow_eq_some _ (by omega)]
    simp
  have htake : b.cumulativeSeqLengths.take b.len =
      (List.range b.len).map (fun i => b.cumulativeSeqLengths.getD i 0) :=
    take_eq_map_range 0 b.len b.cumulativeSeqLengths (by omega)
  by_cases hraw : b.rawIndices = []
  · -- all requests pooled: start offsets used directly in batch order
    simp only [pooledPart, if_neg hp, clsPool, hnarrow, hraw, if_pos rfl]
    rw [htake]
    have hsel : indexSelect outputs
        ((List.range b.len).map (fun i => b.cumulativeSeqLengths.getD i 0)) =
        some (((List.range b.len).map (fun i => b.cumulativeSeqLengths.getD i 0)).map
          (fun j => outputs.getD j (0 : Vec H))) := by
      apply indexSelect_eq_map
      intro j hj
      simp only [List.mem_map, List.mem_range] at hj
      obtain ⟨i, hi, rfl⟩ := hj
      exact (hb i (by simp [hraw, hi])).2
    simp only [Option.pure_def, Option.bind_eq_bind, Option.some_bind, hsel, Option.map_some']
    simp [hraw, List.map_map]
  · -- mixed batch: gather the start offsets through pooled_indices first
    have hblist : ∀ i ∈ b.pooledIndices,
        i < b.len ∧ b.cumulativeSeqLengths.getD i 0 < outputs.length := by
      intro i hi
      exact hb i (by simp [hraw, hi])
    have hsel1 : indexSelect (b.cumulativeSeqLengths.take b.len) b.pooledIndices =
        some (b.pooledIndices.map
          (fun i => (b.cumulativeSeqLengths.take b.len).getD i 0)) := by
      apply indexSelect_eq_map
      intro i hi
      have := (hblist i hi).1
      simp [List.length_take]
      omega
    have hmapeq : b.pooledIndices.map
        (fun i => (b.cumulativeSeqLengths.take b.len).getD i 0) =
        b.pooledIndices.map (fun i => b.cumulativeSeqLengths.getD i 0) := by
      apply List.map_congr_left
      intro i hi
      exact getD_take _ _ (hblist i hi).1
    have hsel2 : indexSelect outputs
        (b.pooledIndices.map (fun i => b.cumulativeSeqLengths.getD i 0)) =
        some ((b.pooledIndices.map (fun i => b.cumulativeSeqLengths.getD i 0)).map
          (fun j => outputs.getD j (0 : Vec H))) := by
      apply indexSelect_eq_map
      intro j hj
      simp only [List.mem_map] at hj
      obtain ⟨i, hi, rfl⟩ := hj
      exact (hblist i hi).2
    simp only [pooledPart, if_neg hp, clsPool, hnarrow, if_neg hraw]
    simp only [Option.pure_def, Option.bind_eq_bind, Option.some_bind, hsel1, hmapeq,
      hsel2, Option.map_some']
    simp [hraw, List.map_map]

/-- Witness for C1: on the concrete mixed batch, CLS pooling returns the
encoder row at request 1's start offset. -/
theorem claim_C1_witness :
    (wBatch.pooledIndices ≠ [] ∧
      wBatch.len < wBatch.cumulativeSeqLengths.length ∧
      (∀ i ∈ (if wBatch.rawIndices = [] then List.range wBatch.len
          else wBatch.pooledIndices),
        i < wBatch.len ∧ wBatch.cumulativeSeqLengths.getD i 0 < wOutputs.length)) ∧
    pooledPart Pool.cls wOutputs wBatch =
      some (some ((if wBatch.rawIndices = [] then List.range wBatch.len
          else wBatch.pooledIndices).map
        (fun i => wOutputs.getD (wBatch.cumulativeSeqLengths.getD i 0) (0 : Vec 1)))) :=
  ⟨⟨by decide, by decide, by decide⟩,
    claim_C1 wOutputs wBatch (by decide) (by decide) (by decide)⟩

/-- C2: under mean pooling with non-empty `pooled_indices`, the pooled vector
of each pooled request `i` with range `[s, s+L)` is the elementwise mean of
encoder rows `s..s+L`; with more than one request the per-request loop is
taken, and with a single request the sum over all tokens is divided by
`max_length`, which coincides with the request's own mean under the
single-request batch invariant. -/
theorem claim_C2 {H : Nat} (outputs : List (Vec H)) (b : Batch)
    (hp : b.pooledIndices ≠ [])
    (hb : ∀ i ∈ b.pooledIndices, i + 1 < b.cumulativeSeqLengths.length ∧
      b.cumulativeSeqLengths.getD i 0 ≤ b.cumulativeSeqLengths.getD (i + 1) 0 ∧
      b.cumulativeSeqLengths.getD (i + 1) 0 ≤ outputs.length)
    (hsingle : b.len ≤ 1 → b.pooledIndices = [0] ∧
      b.cumulativeSeqLengths.getD 0 0 = 0 ∧
      b.cumulativeSeqLengths.getD 1 0 = outputs.length ∧
      b.maxLength = outputs.length) :
    pooledPart Pool.mean outputs b =
      some (some (b.pooledIndices.map (fun i =>
        meanRows (sliceRows outputs (b.cumulativeSeqLengths.getD i 0)
          (b.cumulativeSeqLengths.getD (i + 1) 0))))) := by
  simp only [pooledPart, if_neg hp]
  by_cases h1 : 1 < b.len
  · simp only [meanPool, if_pos h1]
    rw [meanLoop_spec outputs b.cumulativeSeqLengths b.pooledIndices hb]
    rfl
  · obtain ⟨hpool0, hcu0, hcu1, hmax⟩ := hsingle (by omega)
    have hslice : sliceRows outputs (b.cumulativeSeqLengths.getD 0 0)
        (b.cumulativeSeqLengths.getD 1 0) = outputs := by
      unfold sliceRows
      rw [hcu0, hcu1]
      simp
    have hmean : meanRows outputs = divRow (sumRows outputs) ((b.maxLength : Nat) : ℚ) := by
      unfold meanRows
      rw [hmax]
    simp only [meanPool, if_neg h1, hpool0, List.map_cons, List.map_nil, hslice, hmean,
      Option.map_some']

/-- Witness for C2: on the concrete two-request batch, mean pooling returns
the mean of request 1's rows. -/
theorem claim_C2_witness :
    (wBatch.pooledIndices ≠ [] ∧
      (∀ i ∈ wBatch.pooledIndices, i + 1 < wBatch.cumulativeSeqLengths.length ∧
        wBatch.cumulativeSeqLengths.getD i 0 ≤ wBatch.cumulativeSeqLengths.getD (i + 1) 0 ∧
        wBatch.cumulativeSeqLengths.getD (i + 1) 0 ≤ wOutputs.length) ∧
      (wBatch.len ≤ 1 → wBatch.pooledIndices = [0] ∧
        wBatch.cumulativeSeqLengths.getD 0 0 = 0 ∧
        wBatch.cumulativeSeqLengths.getD 1 0 = wOutputs.length ∧
        wBatch.maxLength = wOutputs.length)) ∧
    pooledPart Pool.mean wOutputs wBatch =
      some (some (wBatch.pooledIndices.map (fun i =>
        meanRows (sliceRows wOutputs (wBatch.cumulativeSeqLengths.getD i 0)
          (wBatch.cumulativeSeqLengths.getD (i + 1) 0))))) :=
  ⟨⟨by decide, by decide, by decide⟩,
    claim_C2 wOutputs wBatch (by decide) (by decide) (by decide)⟩

/-- C3: with non-empty `raw_indices`, the raw output buffer is the gather of
encoder rows over every raw request's token range (in `raw_indices` order,
token order within each request) exactly when the batch is mixed and has more
than one request, and is the encoder output unchanged otherwise. -/
theorem claim_C3 {H : Nat} (outputs : List (Vec H)) (b : Batch)
    (hr : b.rawIndices ≠ [])
    (hb : ∀ i ∈ b.rawIndices, i + 1 < b.cumulativeSeqLengths.length ∧
      b.cumulativeSeqLengths.getD i 0 ≤ b.cumulativeSeqLengths.getD (i + 1) 0 ∧
      b.cumulativeSeqLengths.getD (i + 1) 0 ≤ outputs.length) :
    rawPart outputs b =
      some (some (if 1 < b.len ∧ ¬b.pooledIndices = [] then
        (b.rawIndices.map (fun i => sliceRows outputs (b.cumulativeSeqLengths.getD i 0)
          (b.cumulativeSeqLengths.getD (i + 1) 0))).flatten
      else outputs)) := by
  by_cases hc : 1 < b.len ∧ ¬b.pooledIndices = []
  · simp only [rawPart, if_neg hr, if_pos hc]
    rw [tokenRanges_spec b.cumulativeSeqLengths b.rawIndices (fun i hi => (hb i hi).1)]
    simp only [Option.bind_eq_bind, Option.some_bind]
    rw [indexSelect_join_ranges (0 : Vec H) outputs b.cumulativeSeqLengths b.rawIndices hb]
    simp [hc]
  · simp [rawPart, hr, hc]

/-- Witness for C3: on the concrete mixed batch, the raw buffer is the gather
of request 0's two rows. -/
theorem claim_C3_witness :
    (wBatch.rawIndices ≠ [] ∧
      (∀ i ∈ wBatch.rawIndices, i + 1 < wBatch.cumulativeSeqLengths.length ∧
        wBatch.cumulativeSeqLengths.getD i 0 ≤ wBatch.cumulativeSeqLengths.getD (i + 1) 0 ∧
        wBatch.cumulativeSeqLengths.getD (i + 1) 0 ≤ wOutputs.length)) ∧
    rawPart wOutputs wBatch =
      some (some (if 1 < wBatch.len ∧ ¬wBatch.pooledIndices = [] then
        (wBatch.rawIndices.map (fun i =>
          sliceRows wOutputs (wBatch.cumulativeSeqLengths.getD i 0)
            (wBatch.cumulativeSeqLengths.getD (i + 1) 0))).flatten
      else wOutputs)) :=
  ⟨⟨by decide, by decide⟩, claim_C3 wOutputs wBatch (by decide) (by decide)⟩

theorem forwardExtract_inv {H : Nat} {pool : Pool} {outputs : List (Vec H)} {b : Batch}
    {pe re : Option (List (Vec H))}
    (h : forwardExtract pool outputs b = some (pe, re)) :
    pooledPart pool outputs b = some pe ∧ rawPart outputs b = some re := by
  unfold forwardExtract at h
  cases hp : pooledPart pool outputs b with
  | none => rw [hp] at h; simp at h
  | some pe' =>
    rw [hp] at h
    cases hrw : rawPart outputs b with
    | none => rw [hrw] at h; simp at h
    | some re' =>
      rw [hrw] at h
      simp only [Option.bind_eq_bind, Option.some_bind, Option.pure_def,
        Option.some.injEq, Prod.mk.injEq] at h
      obtain ⟨h1, h2⟩ := h
      subst h1
      subst h2
      exact ⟨rfl, rfl⟩

theorem pooledPart_isSome {H : Nat} {pool : Pool} {outputs : List (Vec H)} {b : Batch}
    {pe : Option (List (Vec H))} (h : pooledPart pool outputs b = some pe) :
    pe.isSome ↔ b.pooledIndices ≠ [] := by
  unfold pooledPart at h
  by_cases hp : b.pooledIndices = []
  · rw [if_pos hp] at h
    injection h with h
    subst h
    simp [hp]
  · rw [if_neg hp] at h
    cases pool with
    | cls =>
      cases hc : clsPool outputs b with
      | none => rw [hc] at h; simp at h
      | some l =>
        rw [hc] at h
        simp only [Option.map_some', Option.some.injEq] at h
        subst h
        simp [hp]
    | mean =>
      cases hc : meanPool outputs b with
      | none => rw [hc] at h; simp at h
      | some l =>
        rw [hc] at h
        simp only [Option.map_some', Option.some.injEq] at h
        subst h
        simp [hp]

/-- C6: predict on a model with no configured classification head fails with
the deterministic unsupported-operation error, for every batch and every
encoder output — in particular without consulting the forward pass. -/
theorem claim_C6 {H : Nat} (m : FlashBertModelM H) (outputs : List (Vec H)) (b : Batch)
    (hnone : m.classifier = none) :
    predictM m outputs b =
      Except.error (InferErr.unsupported ("`predict` is not implemented for this model")) := by
  unfold predictM
  rw [hnone]

/-- Witness for C6: concrete headless model on the concrete batch. -/
theorem claim_C6_witness :
    wModelNoHead.classifier = none ∧
    predictM wModelNoHead wOutputs wBatch =
      Except.error (InferErr.unsupported ("`predict` is not implemented for this model")) :=
  ⟨rfl, claim_C6 wModelNoHead wOutputs wBatch rfl⟩

/-- C10: when a classification head is configured, predict reaches the
panicking unwrap of the pooled forward-pass output exactly when
`pooled_indices` is empty; when it is non-empty the forward pass always
produces a pooled tensor. -/
theorem claim_C10 {H : Nat} (m : FlashBertModelM H)
    (cls : List (Vec H) → Option (List (Vec H)))
    (outputs : List (Vec H)) (b : Batch)
    (pe re : Option (List (Vec H)))
    (hcls : m.classifier = some cls)
    (hfwd : forwardExtract m.pool outputs b = some (pe, re)) :
    (pe.isSome ↔ b.pooledIndices ≠ []) ∧
    ((∃ msg, predictM m outputs b = Except.error (InferErr.assertFailed msg)) ↔
      b.pooledIndices = []) := by
  obtain ⟨hpp, _⟩ := forwardExtract_inv hfwd
  have hsome := pooledPart_isSome hpp
  refine ⟨hsome, ?_⟩
  cases hpe : pe with
  | none =>
    have hempty : b.pooledIndices = [] := by
      rw [hpe] at hsome
      simpa using hsome
    rw [hpe] at hfwd
    constructor
    · intro _
      exact hempty
    · intro _
      refine ⟨("pooled_embeddings is empty. This is a bug."), ?_⟩
      simp [predictM, hcls, hfwd]
  | some p =>
    rw [hpe] at hfwd
    have hne : b.pooledIndices ≠ [] := hsome.mp (by rw [hpe]; rfl)
    constructor
    · rintro ⟨msg, hmsg⟩
      simp only [predictM, hcls, hfwd] at hmsg
      cases hcp : cls p <;> rw [hcp] at hmsg <;> simp at hmsg
    · intro h
      exact absurd h hne

/-- Witness for C10: concrete headed model on the concrete mixed batch, whose
forward pass yields a pooled tensor. -/
theorem claim_C10_witness :
    (wModelHead.classifier = some wCls ∧
      forwardExtract wModelHead.pool wOutputs wBatch =
        some (some [(fun _ => 2 : Vec 1)],
          some [(fun _ => 0 : Vec 1), (fun _ => 1 : Vec 1)])) ∧
    ((some [(fun _ => 2 : Vec 1)] : Option (List (Vec 1))).isSome ↔
        wBatch.pooledIndices ≠ []) ∧
    ((∃ msg, predictM wModelHead wOutputs wBatch =
        Except.error (InferErr.assertFailed msg)) ↔ wBatch.pooledIndices = []) :=
  ⟨⟨rfl, rfl⟩,
    claim_C10 wModelHead wCls wOutputs wBatch (some [(fun _ => 2 : Vec 1)])
      (some [(fun _ => 0 : Vec 1), (fun _ => 1 : Vec 1)]) rfl rfl⟩

/-- Counterexample for C5: when all three namespace candidates fail, the load
surfaces the error captured from the FIRST (bare-name) attempt, not the last
encountered error (which would come from the "roberta" attempt). -/
theorem claim_C5_counterexample :
    loadEmbEnc (fun p => (Except.error p : Except String Unit))
        (fun p => (Except.error p : Except String Unit)) (some ("bert")) =
      Except.error ("embeddings") ∧
    ("embeddings" : String) ≠ ("roberta.embeddings") ∧
    ("embeddings" : String) ≠ ("roberta.encoder") :=
  ⟨rfl, by decide, by decide⟩

/-- C5 (amended): weight loading tries the bare name, then the prefix from the
configured model type, then the fixed alternate prefix "roberta", succeeding
on the first candidate that resolves fully; when every candidate fails it
surfaces the error captured from the first (bare-name) attempt. -/
theorem claim_C5 {E A B : Type} (embAt : String → Except E A) (encAt : String → Except E B)
    (modelType : Option String) :
    (∀ r, tryPair (embAt ("embeddings")) (encAt ("encoder")) = Except.ok r →
      loadEmbEnc embAt encAt modelType = Except.ok r) ∧
    (∀ e r, tryPair (embAt ("embeddings")) (encAt ("encoder")) = Except.error e →
      tryPair (embAt (modelType.getD ("bert") ++ (".embeddings")))
        (encAt (modelType.getD ("bert") ++ (".encoder"))) = Except.ok r →
      loadEmbEnc embAt encAt modelType = Except.ok r) ∧
    (∀ e e2 r, tryPair (embAt ("embeddings")) (encAt ("encoder")) = Except.error e →
      tryPair (embAt (modelType.getD ("bert") ++ (".embeddings")))
        (encAt (modelType.getD ("bert") ++ (".encoder"))) = Except.error e2 →
      tryPair (embAt ("roberta.embeddings")) (encAt ("roberta.encoder")) = Except.ok r →
      loadEmbEnc embAt encAt modelType = Except.ok r) ∧
    (∀ e e2 e3, tryPair (embAt ("embeddings")) (encAt ("encoder")) = Except.error e →
      tryPair (embAt (modelType.getD ("bert") ++ (".embeddings")))
        (encAt (modelType.getD ("bert") ++ (".encoder"))) = Except.error e2 →
      tryPair (embAt ("roberta.embeddings")) (encAt ("roberta.encoder")) = Except.error e3 →
      loadEmbEnc embAt encAt modelType = Except.error e) := by
  refine ⟨?_, ?_, ?_, ?_⟩
  · intro r h1
    simp [loadEmbEnc, h1]
  · intro e r h1 h2
    simp [loadEmbEnc, h1, h2]
  · intro e e2 r h1 h2 h3
    simp [loadEmbEnc, h1, h2, h3]
  · intro e e2 e3 h1 h2 h3
    simp [loadEmbEnc, h1, h2, h3]

/-- Witness for C5: all-failing concrete resolvers; the result carries the
first attempt's error. -/
theorem claim_C5_witness :
    (tryPair ((fun p => (Except.error p : Except String Unit)) ("embeddings"))
        ((fun p => (Except.error p : Except String Unit)) ("encoder")) =
      Except.error ("embeddings")) ∧
    loadEmbEnc (fun p => (Except.error p : Except String Unit))
        (fun p => (Except.error p : Except String Unit)) (some ("bert")) =
      Except.error ("embeddings") :=
  ⟨rfl,
    (claim_C5 (fun p => (Except.error p : Except String Unit))
        (fun p => (Except.error p : Except String Unit)) (some ("bert"))).2.2.2
      ("embeddings") ("bert.embeddings") ("roberta.embeddings") rfl rfl rfl⟩

/-- C7: constructing the fused FlashBert variant fails at load time unless the
device is CUDA, the dtype is F16 and position embeddings are absolute; and the
dispatcher selects the fused variant only past the compute-capability check
and with the USE_FLASH_ATTENTION override evaluating to "true". -/
theorem claim_C7 {A B : Type} (device : DeviceM) (dtype : DTypeM) (pos : PosEmbM)
    (embAt : String → Except String A) (encAt : String → Except String B)
    (modelType : Option String) (c : SelectCtx) :
    (¬(device = DeviceM.cuda ∧ dtype = DTypeM.f16 ∧ pos = PosEmbM.absolute) →
      ∃ msg, flashBertLoad device dtype pos embAt encAt modelType = Except.error msg) ∧
    (selectVariant c = Except.ok Variant.flashBert →
      c.device = DeviceM.cuda ∧ c.flashAttnAnyFeature = true ∧ c.dtype = DTypeM.f16 ∧
      c.pos = PosEmbM.absolute ∧ c.useFlashAttentionEnv = true ∧
      c.incompatibleCap = false) := by
  constructor
  · intro h
    cases device with
    | cpu => exact ⟨_, rfl⟩
    | metal => exact ⟨_, rfl⟩
    | cuda =>
      cases dtype with
      | f32 => exact ⟨_, rfl⟩
      | f16 =>
        cases pos with
        | alibi => exact ⟨_, rfl⟩
        | absolute => exact absurd ⟨rfl, rfl, rfl⟩ h
  · rcases c with ⟨dev, dt, po, cf, fa, fv, ic, env⟩
    intro hsel
    cases dev with
    | cpu =>
      simp only [selectVariant] at hsel
      split at hsel <;> simp_all
    | metal =>
      simp only [selectVariant] at hsel
      split at hsel <;> simp_all
    | cuda =>
      simp only [selectVariant] at hsel
      split at hsel
      next hcf => simp at hsel
      next hcf =>
        split at hsel
        next hic => simp at hsel
        next hic =>
          split at hsel
          next hcond =>
            obtain ⟨h1, h2, h3, h4⟩ := hcond
            exact ⟨rfl, h1, h2, h3, h4, by simpa using hic⟩
          next hcond =>
            split at hsel
            next h5 => simp at hsel
            next h5 =>
              split at hsel <;> simp at hsel

/-- Witness for C7: a CPU device makes the fused load fail; the eligible
concrete context selects the fused variant with the gates satisfied. -/
theorem claim_C7_witness :
    (¬(DeviceM.cpu = DeviceM.cuda ∧ DTypeM.f16 = DTypeM.f16 ∧
        PosEmbM.absolute = PosEmbM.absolute) ∧
      (∃ msg, flashBertLoad DeviceM.cpu DTypeM.f16 PosEmbM.absolute
        (fun _ => (Except.ok () : Except String Unit))
        (fun _ => (Except.ok () : Except String Unit)) none = Except.error msg)) ∧
    (selectVariant wSelectCtx = Except.ok Variant.flashBert ∧
      (wSelectCtx.device = DeviceM.cuda ∧ wSelectCtx.flashAttnAnyFeature = true ∧
        wSelectCtx.dtype = DTypeM.f16 ∧ wSelectCtx.pos = PosEmbM.absolute ∧
        wSelectCtx.useFlashAttentionEnv = true ∧
        wSelectCtx.incompatibleCap = false)) :=
  ⟨⟨by decide,
      (claim_C7 DeviceM.cpu DTypeM.f16 PosEmbM.absolute
        (fun _ => (Except.ok () : Except String Unit))
        (fun _ => (Except.ok () : Except String Unit)) none wSelectCtx).1 (by decide)⟩,
    ⟨by decide,
      (claim_C7 DeviceM.cpu DTypeM.f16 PosEmbM.absolute
        (fun _ => (Except.ok () : Except String Unit))
        (fun _ => (Except.ok () : Except String Unit)) none wSelectCtx).2 (by decide)⟩⟩

/-- C8: the embedding stage sums the word and token-type lookups elementwise
and hands that sum, together with the position-embedding lookup, directly to
the two-operand normalization layer; whatever the normalization computes, the
position embedding enters it as an operand and is not added afterwards. -/
theorem claim_C8 {H : Nat} (ln : List (Vec H) → List (Vec H) → Option (List (Vec H)))
    (wordT typeT posT : List (Vec H)) (inputIds typeIds posIds : List Nat)
    (hw : ∀ i ∈ inputIds, i < wordT.length)
    (ht : ∀ i ∈ typeIds, i < typeT.length)
    (hp : ∀ i ∈ posIds, i < posT.length)
    (hlen : typeIds.length = inputIds.length) :
    bertEmbeddingsForward ln wordT typeT posT inputIds typeIds posIds =
      ln (List.zipWith (· + ·) (inputIds.map (fun i => wordT.getD i (0 : Vec H)))
        (typeIds.map (fun i => typeT.getD i (0 : Vec H))))
        (posIds.map (fun i => posT.getD i (0 : Vec H))) := by
  simp only [bertEmbeddingsForward, Option.bind_eq_bind,
    indexSelect_eq_map wordT (0 : Vec H) inputIds hw,
    indexSelect_eq_map typeT (0 : Vec H) typeIds ht,
    indexSelect_eq_map posT (0 : Vec H) posIds hp,
    Option.some_bind]
  unfold addRowsOpt
  rw [if_pos (by simp [hlen])]
  simp only [Option.some_bind]

/-- Witness for C8: concrete tables and ids through the adding stand-in
normalization. -/
theorem claim_C8_witness :
    ((∀ i ∈ [0, 1], i < wOutputs.length) ∧
      (∀ i ∈ [0, 0], i < wOutputs.length) ∧
      (∀ i ∈ [0, 1], i < wOutputs.length) ∧
      ([0, 0] : List Nat).length = ([0, 1] : List Nat).length) ∧
    bertEmbeddingsForward wLn wOutputs wOutputs wOutputs [0, 1] [0, 0] [0, 1] =
      wLn (List.zipWith (· + ·) (([0, 1] : List Nat).map (fun i => wOutputs.getD i (0 : Vec 1)))
        (([0, 0] : List Nat).map (fun i => wOutputs.getD i (0 : Vec 1))))
        (([0, 1] : List Nat).map (fun i => wOutputs.getD i (0 : Vec 1))) :=
  ⟨⟨by decide, by decide, by decide, by decide⟩,
    claim_C8 wLn wOutputs wOutputs wOutputs [0, 1] [0, 0] [0, 1]
      (by decide) (by decide) (by decide) (by decide)⟩

theorem narrow_inv {α : Type} {rows : List α} {s len : Nat} {x : List α}
    (h : narrow rows s len = some x) :
    x = (rows.drop s).take len ∧ s + len ≤ rows.length := by
  unfold narrow at h
  split at h
  next hle =>
    injection h with h
    exact ⟨h.symm, hle⟩
  next => simp at h

theorem length_sliceRows {α : Type} (rows : List α) (s e : Nat) (h : e ≤ rows.length) :
    (sliceRows rows s e).length = e - s := by
  simp only [sliceRows, List.length_take, List.length_drop]
  omega

theorem meanLoop_length {H : Nat} (outputs : List (Vec H)) (cu : List Nat) :
    ∀ {is : List Nat} {l : List (Vec H)},
      meanLoop outputs cu is = some l → l.length = is.length
  | [], l, h => by
    simp only [meanLoop, Option.some.injEq] at h
    subst h; rfl
  | i :: is, l, h => by
    simp only [meanLoop, Option.bind_eq_bind] at h
    cases h1 : cu[i]? with
    | none => rw [h1] at h; simp at h
    | some s =>
      rw [h1] at h
      cases h2 : cu[i + 1]? with
      | none => rw [h2] at h; simp at h
      | some e =>
        rw [h2] at h
        simp only [Option.some_bind] at h
        cases h3 : narrow outputs s (e - s) with
        | none => rw [h3] at h; simp at h
        | some rows =>
          rw [h3] at h
          cases h4 : meanLoop outputs cu is with
          | none => rw [h4] at h; simp at h
          | some rest =>
            rw [h4] at h
            simp only [Option.some_bind, Option.pure_def, Option.some.injEq] at h
            subst h
            simp [meanLoop_length outputs cu h4]

theorem length_eq_of_nodup_cover {l : List Nat} {R : Nat} (hnd : l.Nodup)
    (hcov : ∀ i, i < R ↔ i ∈ l) : l.length = R := by
  have h1 : l.toFinset = Finset.range R := by
    ext x
    simp [List.mem_toFinset, Finset.mem_range, hcov x]
  have h2 := List.toFinset_card_of_nodup hnd
  rw [h1, Finset.card_range] at h2
  omega

theorem sum_map_le_of_bounded {f : Nat → Nat} {l : List Nat} {R : Nat} (hnd : l.Nodup)
    (hsub : ∀ i ∈ l, i < R) :
    (l.map f).sum ≤ ((List.range R).map f).sum := by
  rw [← List.sum_toFinset f hnd, ← List.sum_toFinset f (List.nodup_range _)]
  apply Finset.sum_le_sum_of_subset
  intro x hx
  simp only [List.mem_toFinset, List.mem_range] at hx ⊢
  exact hsub x hx

theorem getD_mono_le (cu : List Nat)
    (hmono : ∀ k, k + 1 < cu.length → cu.getD k 0 ≤ cu.getD (k + 1) 0) :
    ∀ {a b : Nat}, a ≤ b → b < cu.length → cu.getD a 0 ≤ cu.getD b 0 := by
  intro a b
  induction b with
  | zero =>
    intro hab _
    have : a = 0 := by omega
    subst this
    exact le_refl _
  | succ n ih =>
    intro hab hb
    rcases Nat.lt_or_ge a (n + 1) with hlt | hge
    · exact le_trans (ih (by omega) (by omega)) (hmono n hb)
    · have : a = n + 1 := by omega
      subst this
      exact le_refl _

theorem sum_consecutive_diffs (cu : List Nat)
    (hmono : ∀ k, k + 1 < cu.length → cu.getD k 0 ≤ cu.getD (k + 1) 0) :
    ∀ n, n < cu.length →
      ((List.range n).map (fun i => cu.getD (i + 1) 0 - cu.getD i 0)).sum =
        cu.getD n 0 - cu.getD 0 0
  | 0, _ => by simp
  | n + 1, h => by
    rw [List.range_succ, List.map_append, List.sum_append]
    rw [sum_consecutive_diffs cu hmono n (by omega)]
    simp only [List.map_cons, List.map_nil, List.sum_cons, List.sum_nil]
    have h1 : cu.getD n 0 ≤ cu.getD (n + 1) 0 := hmono n h
    have h2 : cu.getD 0 0 ≤ cu.getD n 0 :=
      getD_mono_le cu hmono (Nat.zero_le n) (by omega)
    omega

theorem inputLengths_getD {b : Batch} {i : Nat} (h : i < b.len) :
    (inputLengths b).getD i 0 = requestLength b i := by
  unfold inputLengths
  rw [List.getD_eq_getElem?_getD, List.getElem?_map, List.getElem?_range h]
  rfl

theorem insertPooled_not_mem {H : Nat} :
    ∀ (l : List (Nat × Vec H)) (m : EmbMap H) (i : Nat),
      i ∉ l.map Prod.fst → insertPooled l m i = m i
  | [], _, _, _ => rfl
  | (k, e) :: rest, m, i, h => by
    simp only [List.map_cons, List.mem_cons, not_or] at h
    simp only [insertPooled]
    rw [insertPooled_not_mem rest _ i h.2]
    simp [mapInsert, h.1]

theorem insertPooled_mem {H : Nat} :
    ∀ (l : List (Nat × Vec H)) (m : EmbMap H) (i : Nat),
      i ∈ l.map Prod.fst → ∃ v, insertPooled l m i = some (Embedding.Pooled v)
  | [], _, _, h => by simp at h
  | (k, e) :: rest, m, i, h => by
    by_cases hmem : i ∈ rest.map Prod.fst
    · exact insertPooled_mem rest _ i hmem
    · have hik : i = k := by
        simp only [List.map_cons, List.mem_cons] at h
        tauto
      subst hik
      refine ⟨e, ?_⟩
      simp only [insertPooled]
      rw [insertPooled_not_mem rest _ i hmem]
      simp [mapInsert]

theorem pooledRows_length {H : Nat} {pool : Pool} {outputs : List (Vec H)} {b : Batch}
    {pe : Option (List (Vec H))}
    (h : pooledPart pool outputs b = some pe)
    (hlen1 : b.rawIndices = [] → b.pooledIndices.length = b.len)
    (hlen2 : ¬1 < b.len → b.pooledIndices ≠ [] → b.pooledIndices.length = 1) :
    (pe.getD []).length = b.pooledIndices.length := by
  unfold pooledPart at h
  by_cases hp : b.pooledIndices = []
  · rw [if_pos hp] at h
    injection h with h
    subst h
    simp [hp]
  · rw [if_neg hp] at h
    cases pool with
    | cls =>
      cases hc : clsPool outputs b with
      | none => rw [hc] at h; simp at h
      | some l =>
        rw [hc] at h
        simp only [Option.map_some', Option.some.injEq] at h
        subst h
        simp only [Option.getD_some]
        unfold clsPool at hc
        cases hn : narrow b.cumulativeSeqLengths 0 b.len with
        | none => rw [hn] at hc; simp at hc
        | some ci =>
          rw [hn] at hc
          obtain ⟨hci, hbound⟩ := narrow_inv hn
          simp only [Option.bind_eq_bind, Option.some_bind] at hc
          by_cases hraw : b.rawIndices = []
          · rw [if_pos hraw] at hc
            simp only [Option.pure_def, Option.some_bind] at hc
            rw [indexSelect_length outputs hc, hci, hlen1 hraw]
            simp only [List.drop_zero, List.length_take]
            omega
          · rw [if_neg hraw] at hc
            cases hsel : indexSelect ci b.pooledIndices with
            | none => rw [hsel] at hc; simp at hc
            | some ci2 =>
              rw [hsel] at hc
              simp only [Option.some_bind] at hc
              rw [indexSelect_length outputs hc, indexSelect_length ci hsel]
    | mean =>
      cases hc : meanPool outputs b with
      | none => rw [hc] at h; simp at h
      | some l =>
        rw [hc] at h
        simp only [Option.map_some', Option.some.injEq] at h
        subst h
        simp only [Option.getD_some]
        unfold meanPool at hc
        by_cases h1 : 1 < b.len
        · rw [if_pos h1] at hc
          exact meanLoop_length outputs b.cumulativeSeqLengths hc
        · rw [if_neg h1] at hc
          injection hc with hc
          subst hc
          rw [hlen2 h1 hp]
          rfl

theorem insertRaw_spec {H : Nat} (lens : List Nat) (rawRows : List (Vec H)) :
    ∀ (l : List Nat) (cum : Nat) (m : EmbMap H),
      (∀ i ∈ l, i < lens.length) →
      cum + (l.map (fun i' => lens.getD i' 0)).sum ≤ rawRows.length →
      l.Nodup →
      ∃ m', insertRaw lens rawRows l cum m = some m' ∧
        (∀ j i, l[j]? = some i →
          m' i = some (Embedding.All (sliceRows rawRows
            (cum + ((l.take j).map (fun i' => lens.getD i' 0)).sum)
            (cum + ((l.take j).map (fun i' => lens.getD i' 0)).sum + lens.getD i 0)))) ∧
        (∀ i, i ∉ l → m' i = m i)
  | [], cum, m, _, _, _ => by
    refine ⟨m, rfl, ?_, fun _ _ => rfl⟩
    intro j i hj
    simp at hj
  | i :: is, cum, m, hmem, hbound, hnd => by
    have hi : i < lens.length := hmem i (by simp)
    have hilen : lens[i]? = some (lens.getD i 0) := getElem?_eq_some_getD lens 0 hi
    have hsum : cum + lens.getD i 0 + (is.map (fun i' => lens.getD i' 0)).sum ≤
        rawRows.length := by
      simp only [List.map_cons, List.sum_cons] at hbound
      omega
    have hnar : narrow rawRows cum (lens.getD i 0) =
        some ((rawRows.drop cum).take (lens.getD i 0)) :=
      narrow_eq_some rawRows (by omega)
    obtain ⟨hhead, htail⟩ := List.nodup_cons.mp hnd
    obtain ⟨m', hm', hraw', hout'⟩ := insertRaw_spec lens rawRows is (cum + lens.getD i 0)
      (mapInsert m i (Embedding.All ((rawRows.drop cum).take (lens.getD i 0))))
      (fun j hj => hmem j (by simp [hj])) hsum htail
    refine ⟨m', ?_, ?_, ?_⟩
    · simp only [insertRaw, Option.bind_eq_bind, hilen, Option.some_bind, hnar, hm']
    · intro j i' hj
      cases j with
      | zero =>
        simp only [List.getElem?_cons_zero, Option.some.injEq] at hj
        subst hj
        rw [hout' i hhead]
        simp only [mapInsert, if_pos rfl, List.take_zero, List.map_nil, List.sum_nil,
          Nat.add_zero]
        simp [sliceRows, Nat.add_sub_cancel_left]
      | succ n =>
        simp only [List.getElem?_cons_succ] at hj
        rw [hraw' n i' hj]
        simp only [List.take_succ_cons, List.map_cons, List.sum_cons, Nat.add_assoc]
    · intro i' hi'
      have h1 : i' ∉ is := fun hh => hi' (by simp [hh])
      have h2 : i' ≠ i := fun hh => hi' (by simp [hh])
      rw [hout' i' h1]
      simp [mapInsert, h2]

/-- C4: under the packed-batch invariants, `embed` returns a mapping defined
on exactly the request indices — `Pooled` for indices in `pooled_indices`,
`All` (raw) for indices in `raw_indices`, nothing elsewhere — where each raw
request's sequence is re-sliced from the raw output buffer by that request's
own length from `cumulative_seq_lengths`, advancing a running offset in
`raw_indices` iteration order. -/
theorem claim_C4 {H : Nat} (pool : Pool) (outputs : List (Vec H)) (b : Batch)
    (pe re : Option (List (Vec H)))
    (hRlen : b.cumulativeSeqLengths.length = b.len + 1)
    (hdisj : ∀ i ∈ b.pooledIndices, i ∉ b.rawIndices)
    (hcovP : ∀ i ∈ b.pooledIndices, i < b.len)
    (hcovR : ∀ i ∈ b.rawIndices, i < b.len)
    (hcov : ∀ i < b.len, i ∈ b.pooledIndices ∨ i ∈ b.rawIndices)
    (hndp : b.pooledIndices.Nodup)
    (hndr : b.rawIndices.Nodup)
    (hmono : ∀ k < b.len,
      b.cumulativeSeqLengths.getD k 0 ≤ b.cumulativeSeqLengths.getD (k + 1) 0)
    (hlast : b.cumulativeSeqLengths.getD b.len 0 = outputs.length)
    (hfwd : forwardExtract pool outputs b = some (pe, re)) :
    ∃ m, backendEmbed pool outputs b = some m ∧
      (∀ i ∈ b.pooledIndices, ∃ v, m i = some (Embedding.Pooled v)) ∧
      (∀ j i, b.rawIndices[j]? = some i →
        m i = some (Embedding.All (sliceRows (re.getD [])
          (((b.rawIndices.take j).map (requestLength b)).sum)
          (((b.rawIndices.take j).map (requestLength b)).sum + requestLength b i)))) ∧
      (∀ i, i ∉ b.pooledIndices → i ∉ b.rawIndices → m i = none) := by
  obtain ⟨hpp, hrp⟩ := forwardExtract_inv hfwd
  have hmono' : ∀ k, k + 1 < b.cumulativeSeqLengths.length →
      b.cumulativeSeqLengths.getD k 0 ≤ b.cumulativeSeqLengths.getD (k + 1) 0 := by
    intro k hk
    exact hmono k (by omega)
  have hlen1 : b.rawIndices = [] → b.pooledIndices.length = b.len := by
    intro hre
    apply length_eq_of_nodup_cover hndp
    intro i
    constructor
    · intro hi
      rcases hcov i hi with h | h
      · exact h
      · rw [hre] at h
        simp at h
    · exact hcovP i
  have hlen2 : ¬1 < b.len → b.pooledIndices ≠ [] → b.pooledIndices.length = 1 := by
    intro hR hpne
    obtain ⟨i0, hi0⟩ := List.exists_mem_of_ne_nil _ hpne
    have hi0R : i0 < b.len := hcovP i0 hi0
    have hR1 : b.len = 1 := by omega
    have hre : b.rawIndices = [] := by
      by_contra hrne
      obtain ⟨j0, hj0⟩ := List.exists_mem_of_ne_nil _ hrne
      have hjR : j0 < b.len := hcovR j0 hj0
      have hj0z : j0 = 0 := by omega
      subst hj0z
      have hi0z : i0 = 0 := by omega
      subst hi0z
      exact hdisj 0 hi0 hj0
    rw [hlen1 hre, hR1]
  have hplen : (pe.getD []).length = b.pooledIndices.length :=
    pooledRows_length hpp hlen1 hlen2
  have hlenslen : (inputLengths b).length = b.len := by
    simp [inputLengths]
  have hmemlens : ∀ i ∈ b.rawIndices, i < (inputLengths b).length := by
    intro i hi
    rw [hlenslen]
    exact hcovR i hi
  have hmapeq : ∀ l : List Nat, (∀ i ∈ l, i < b.len) →
      l.map (fun i' => (inputLengths b).getD i' 0) = l.map (requestLength b) := by
    intro l hl
    apply List.map_congr_left
    intro i hi
    exact inputLengths_getD (hl i hi)
  have hboundraw : 0 + (b.rawIndices.map (fun i' => (inputLengths b).getD i' 0)).sum ≤
      (re.getD []).length := by
    rw [Nat.zero_add, hmapeq b.rawIndices hcovR]
    by_cases hre : b.rawIndices = []
    · simp [hre]
    · unfold rawPart at hrp
      rw [if_neg hre] at hrp
      by_cases hcmix : 1 < b.len ∧ ¬b.pooledIndices = []
      · rw [if_pos hcmix] at hrp
        have hbounds2 : ∀ i ∈ b.rawIndices, i + 1 < b.cumulativeSeqLengths.length ∧
            b.cumulativeSeqLengths.getD i 0 ≤ b.cumulativeSeqLengths.getD (i + 1) 0 ∧
            b.cumulativeSeqLengths.getD (i + 1) 0 ≤ outputs.length := by
          intro i hi
          have h1 : i < b.len := hcovR i hi
          refine ⟨by omega, hmono i h1, ?_⟩
          rw [← hlast]
          exact getD_mono_le _ hmono' (by omega) (by omega)
        rw [tokenRanges_spec b.cumulativeSeqLengths b.rawIndices
          (fun i hi => (hbounds2 i hi).1)] at hrp
        simp only [Option.bind_eq_bind, Option.some_bind] at hrp
        rw [indexSelect_join_ranges (0 : Vec H) outputs b.cumulativeSeqLengths
          b.rawIndices hbounds2] at hrp
        simp only [Option.some_bind, Option.pure_def, Option.some.injEq] at hrp
        rw [← hrp]
        simp only [Option.getD_some]
        rw [List.length_flatten, List.map_map]
        apply le_of_eq
        congr 1
        apply List.map_congr_left
        intro i hi
        have hsl := length_sliceRows outputs (b.cumulativeSeqLengths.getD i 0)
          (b.cumulativeSeqLengths.getD (i + 1) 0) (hbounds2 i hi).2.2
        simp only [Function.comp_apply, hsl, requestLength]
      · rw [if_neg hcmix] at hrp
        simp only [Option.some.injEq] at hrp
        rw [← hrp]
        simp only [Option.getD_some]
        calc (b.rawIndices.map (requestLength b)).sum
            ≤ ((List.range b.len).map (requestLength b)).sum :=
              sum_map_le_of_bounded hndr hcovR
          _ = b.cumulativeSeqLengths.getD b.len 0 - b.cumulativeSeqLengths.getD 0 0 :=
              sum_consecutive_diffs b.cumulativeSeqLengths hmono' b.len (by omega)
          _ ≤ outputs.length := by
              rw [hlast]
              omega
  obtain ⟨m', hm', hrawm, houtm⟩ := insertRaw_spec (inputLengths b) (re.getD [])
    b.rawIndices 0 (insertPooled (b.pooledIndices.zip (pe.getD [])) (fun _ => none))
    hmemlens hboundraw hndr
  have hfst : (b.pooledIndices.zip (pe.getD [])).map Prod.fst = b.pooledIndices :=
    List.map_fst_zip _ _ (le_of_eq hplen.symm)
  refine ⟨m', ?_, ?_, ?_, ?_⟩
  · simp only [backendEmbed, Option.bind_eq_bind, hfwd, Option.some_bind]
    exact hm'
  · intro i hi
    rw [houtm i (hdisj i hi)]
    apply insertPooled_mem
    rw [hfst]
    exact hi
  · intro j i hj
    have hi : i ∈ b.rawIndices := List.getElem?_mem hj
    have hiR : i < b.len := hcovR i hi
    rw [hrawm j i hj]
    have htake : ((b.rawIndices.take j).map (fun i' => (inputLengths b).getD i' 0)).sum =
        ((b.rawIndices.take j).map (requestLength b)).sum := by
      rw [hmapeq (b.rawIndices.take j)
        (fun i' hi' => hcovR i' (List.mem_of_mem_take hi'))]
    rw [htake, inputLengths_getD hiR]
    simp only [Nat.zero_add]
  · intro i hip hir
    rw [houtm i hir]
    rw [insertPooled_not_mem _ _ i (by rw [hfst]; exact hip)]

/-- Witness for C4: the full embed pipeline on the concrete mixed batch:
request 1 becomes Pooled, request 0 becomes All re-sliced from the raw
buffer, nothing else is present. -/
theorem claim_C4_witness :
    (wBatch.cumulativeSeqLengths.length = wBatch.len + 1 ∧
      (∀ i ∈ wBatch.pooledIndices, i ∉ wBatch.rawIndices) ∧
      (∀ i ∈ wBatch.pooledIndices, i < wBatch.len) ∧
      (∀ i ∈ wBatch.rawIndices, i < wBatch.len) ∧
      (∀ i < wBatch.len, i ∈ wBatch.pooledIndices ∨ i ∈ wBatch.rawIndices) ∧
      wBatch.pooledIndices.Nodup ∧ wBatch.rawIndices.Nodup ∧
      (∀ k < wBatch.len, wBatch.cumulativeSeqLengths.getD k 0 ≤
        wBatch.cumulativeSeqLengths.getD (k + 1) 0) ∧
      wBatch.cumulativeSeqLengths.getD wBatch.len 0 = wOutputs.length) ∧
    (∃ m, backendEmbed Pool.cls wOutputs wBatch = some m ∧
      (∀ i ∈ wBatch.pooledIndices, ∃ v, m i = some (Embedding.Pooled v)) ∧
      (∀ j i, wBatch.rawIndices[j]? = some i →
        m i = some (Embedding.All (sliceRows
          ((some [(fun _ => 0 : Vec 1), (fun _ => 1 : Vec 1)] :
            Option (List (Vec 1))).getD [])
          (((wBatch.rawIndices.take j).map (requestLength wBatch)).sum)
          (((wBatch.rawIndices.take j).map (requestLength wBatch)).sum +
            requestLength wBatch i)))) ∧
      (∀ i, i ∉ wBatch.pooledIndices → i ∉ wBatch.rawIndices → m i = none)) :=
  ⟨⟨by decide, by decide, by decide, by decide, by decide, by decide, by decide,
      by decide, by decide⟩,
    claim_C4 Pool.cls wOutputs wBatch (some [(fun _ => 2 : Vec 1)])
      (some [(fun _ => 0 : Vec 1), (fun _ => 1 : Vec 1)])
      (by decide) (by decide) (by decide) (by decide) (by decide) (by decide)
      (by decide) (by decide) (by decide) rfl⟩

theorem filter_range_min (s t : Nat) :
    ∀ n, (List.range n).filter (fun j => decide (s ≤ j) && decide (j < t)) =
      List.range' s (min t n - s)
  | 0 => by simp
  | n + 1 => by
    rw [List.range_succ, List.filter_append, filter_range_min s t n]
    by_cases hn : n < t
    · have hmin1 : min t n = n := by omega
      have hmin2 : min t (n + 1) = n + 1 := by omega
      rw [hmin1, hmin2]
      by_cases hs : s ≤ n
      · have hone : List.filter (fun j => decide (s ≤ j) && decide (j < t)) [n] = [n] := by
          simp [List.filter, hs, hn]
        rw [hone]
        have harr : n + 1 - s = (n - s) + 1 := by omega
        rw [harr, List.range'_concat]
        congr 1
        simp only [one_mul]
        congr 1
        omega
      · have hone : List.filter (fun j => decide (s ≤ j) && decide (j < t)) [n] = [] := by
          simp [List.filter, hs]
        rw [hone, List.append_nil]
        have h1 : n - s = 0 := by omega
        have h2 : n + 1 - s = 0 := by omega
        rw [h1, h2]
    · have hmin : min t (n + 1) = min t n := by omega
      have hone : List.filter (fun j => decide (s ≤ j) && decide (j < t)) [n] = [] := by
        simp [List.filter, hn]
      rw [hone, List.append_nil, hmin]

theorem segOf_head_some {c0 c1 : Nat} {rest : List Nat} {j : Nat}
    (h0 : c0 ≤ j) (h1 : j < c1) :
    segOf (c0 :: c1 :: rest) j = some 0 := by
  unfold segOf
  have hlen : (c0 :: c1 :: rest).length - 1 = rest.length + 1 := by simp
  rw [hlen, List.range_succ_eq_map]
  apply List.find?_cons_of_pos
  simp [h0, h1]

theorem segOf_lt_head_none {cu : List Nat} {j : Nat}
    (hmono : ∀ m, m + 1 < cu.length → cu.getD m 0 ≤ cu.getD (m + 1) 0)
    (hj : j < cu.getD 0 0) :
    segOf cu j = none := by
  unfold segOf
  apply List.find?_eq_none.mpr
  intro m hm
  simp only [List.mem_range] at hm
  have hm0 : cu.getD 0 0 ≤ cu.getD m 0 :=
    getD_mono_le cu hmono (Nat.zero_le m) (by omega)
  simp only [Bool.and_eq_true, decide_eq_true_eq, not_and]
  intro hc
  omega

theorem segOf_ge_last_none {cu : List Nat} {j : Nat}
    (hmono : ∀ m, m + 1 < cu.length → cu.getD m 0 ≤ cu.getD (m + 1) 0)
    (hj : cu.getD (cu.length - 1) 0 ≤ j) :
    segOf cu j = none := by
  unfold segOf
  apply List.find?_eq_none.mpr
  intro m hm
  simp only [List.mem_range] at hm
  have h1 : cu.getD (m + 1) 0 ≤ cu.getD (cu.length - 1) 0 :=
    getD_mono_le cu hmono (by omega) (by omega)
  simp only [Bool.and_eq_true, decide_eq_true_eq, not_and]
  intro _
  omega

theorem segOf_cons_shift {c0 c1 : Nat} {rest : List Nat} {j : Nat} (hj : c1 ≤ j) :
    segOf (c0 :: c1 :: rest) j = (segOf (c1 :: rest) j).map (· + 1) := by
  unfold segOf
  have hlen1 : (c0 :: c1 :: rest).length - 1 = rest.length + 1 := by simp
  have hlen2 : (c1 :: rest).length - 1 = rest.length := by simp
  rw [hlen1, hlen2, List.range_succ_eq_map]
  rw [List.find?_cons_of_neg]
  · rw [List.find?_map]
    have hfun : ((fun m => decide ((c0 :: c1 :: rest).getD m 0 ≤ j) &&
        decide (j < (c0 :: c1 :: rest).getD (m + 1) 0)) ∘ Nat.succ) =
        (fun m => decide ((c1 :: rest).getD m 0 ≤ j) &&
          decide (j < (c1 :: rest).getD (m + 1) 0)) := by
      funext m
      simp [Function.comp, List.getD_cons_succ]
    rw [hfun]
  · simp [Nat.not_lt.mpr hj]

theorem sameSegB_interval {c0 c1 : Nat} {rest : List Nat} {i : Nat}
    (hmono : ∀ m, m + 1 < (c0 :: c1 :: rest).length →
      (c0 :: c1 :: rest).getD m 0 ≤ (c0 :: c1 :: rest).getD (m + 1) 0)
    (hi0 : c0 ≤ i) (hi1 : i < c1) :
    ∀ j, sameSegB (c0 :: c1 :: rest) i j = (decide (c0 ≤ j) && decide (j < c1)) := by
  intro j
  have hsegi : segOf (c0 :: c1 :: rest) i = some 0 := segOf_head_some hi0 hi1
  unfold sameSegB
  rw [hsegi]
  by_cases hj1 : j < c0
  · rw [segOf_lt_head_none hmono (by simpa using hj1)]
    have hle : ¬c0 ≤ j := by omega
    simp [hle]
  · by_cases hj2 : j < c1
    · rw [segOf_head_some (by omega) hj2]
      have hle : c0 ≤ j := by omega
      simp [hle, hj2]
    · rw [segOf_cons_shift (by omega)]
      cases segOf (c1 :: rest) j with
      | none => simp [hj2]
      | some a => simp [hj2]

theorem sameSegB_shift {c0 c1 : Nat} {rest : List Nat} {i : Nat}
    (hmono : ∀ m, m + 1 < (c0 :: c1 :: rest).length →
      (c0 :: c1 :: rest).getD m 0 ≤ (c0 :: c1 :: rest).getD (m + 1) 0)
    (hi : c1 ≤ i) :
    ∀ j, sameSegB (c0 :: c1 :: rest) i j = sameSegB (c1 :: rest) i j := by
  have hmono' : ∀ m, m + 1 < (c1 :: rest).length →
      (c1 :: rest).getD m 0 ≤ (c1 :: rest).getD (m + 1) 0 := by
    intro m hm
    have hfull := hmono (m + 1) (by simp at hm ⊢; omega)
    simpa [List.getD_cons_succ] using hfull
  intro j
  unfold sameSegB
  rw [segOf_cons_shift hi]
  by_cases hj : c1 ≤ j
  · rw [segOf_cons_shift hj]
    cases segOf (c1 :: rest) i with
    | none => cases segOf (c1 :: rest) j <;> rfl
    | some a =>
      cases segOf (c1 :: rest) j with
      | none => rfl
      | some b =>
        simp only [Option.map_some']
        simp [decide_eq_decide]
  · have htail : segOf (c1 :: rest) j = none :=
      segOf_lt_head_none hmono' (by simpa using by omega)
    rw [htail]
    by_cases hj0 : c0 ≤ j
    · rw [segOf_head_some hj0 (by omega)]
      cases segOf (c1 :: rest) i with
      | none => rfl
      | some a => simp
    · rw [segOf_lt_head_none hmono (show j < (c0 :: c1 :: rest).getD 0 0 by
        simpa using by omega)]
      cases segOf (c1 :: rest) i with
      | none => rfl
      | some a => rfl

theorem attnRow_slice_eq_maskedRow {H : Nat} (e : ℚ → ℚ) (scale : ℚ) (q : Vec H)
    (k v : List (Vec H)) {s t : Nat} (hst : s ≤ t) (hk : t ≤ k.length)
    (hv : t ≤ v.length) :
    attnRow e scale q (sliceRows k s t) (sliceRows v s t) =
      maskedRow e scale q k v (fun j => decide (s ≤ j) && decide (j < t)) := by
  have hks : sliceRows k s t = (List.range' s (t - s)).map (fun j => k.getD j 0) := by
    unfold sliceRows
    exact slice_eq_map_range' 0 k (by omega)
  have hvs : sliceRows v s t = (List.range' s (t - s)).map (fun j => v.getD j 0) := by
    unfold sliceRows
    exact slice_eq_map_range' 0 v (by omega)
  have hfilter : (List.range k.length).filter
      (fun j => decide (s ≤ j) && decide (j < t)) = List.range' s (t - s) := by
    rw [filter_range_min s t k.length]
    congr 1
    omega
  unfold attnRow maskedRow softmaxW
  rw [hks, hvs, hfilter]
  simp only [List.map_map, List.zip_map', Function.comp]
  rfl

theorem varlenAttn_eq_rows {H : Nat} (e : ℚ → ℚ) (scale : ℚ) :
    ∀ (cu : List Nat) (q k v : List (Vec H)),
      (∀ m, m + 1 < cu.length → cu.getD m 0 ≤ cu.getD (m + 1) 0) →
      cu.getD (cu.length - 1) 0 ≤ q.length →
      cu.getD (cu.length - 1) 0 ≤ k.length →
      cu.getD (cu.length - 1) 0 ≤ v.length →
      varlenAttn e scale q k v cu =
        (List.range' (cu.getD 0 0) (cu.getD (cu.length - 1) 0 - cu.getD 0 0)).map
          (fun i => maskedRow e scale (q.getD i 0) k v (fun j => sameSegB cu i j))
  | [], q, k, v, _, _, _, _ => by
    simp [varlenAttn, segmentsOf]
  | [c], q, k, v, _, _, _, _ => by
    simp [varlenAttn, segmentsOf]
  | c0 :: c1 :: rest, q, k, v, hmono, hq, hk, hv => by
    have hmono' : ∀ m, m + 1 < (c1 :: rest).length →
        (c1 :: rest).getD m 0 ≤ (c1 :: rest).getD (m + 1) 0 := by
      intro m hm
      have hfull := hmono (m + 1) (by simp at hm ⊢; omega)
      simpa [List.getD_cons_succ] using hfull
    have hLdef : (c0 :: c1 :: rest).getD ((c0 :: c1 :: rest).length - 1) 0 =
        (c1 :: rest).getD ((c1 :: rest).length - 1) 0 := by
      simp only [List.length_cons]
      rw [show rest.length + 1 + 1 - 1 = rest.length + 1 by omega,
        show rest.length + 1 - 1 = rest.length by omega]
      simp [List.getD_cons_succ]
    rw [hLdef] at hq hk hv
    set L := (c1 :: rest).getD ((c1 :: rest).length - 1) 0 with hLdefn
    have hc01 : c0 ≤ c1 := by
      have h0 := hmono 0 (by simp)
      simpa using h0
    have hc1L : c1 ≤ L := by
      have h0 := getD_mono_le (c1 :: rest) hmono'
        (Nat.zero_le ((c1 :: rest).length - 1)) (by simp only [List.length_cons]; omega)
      simpa [hLdefn] using h0
    have hsplit : List.range' c0 (L - c0) =
        List.range' c0 (c1 - c0) ++ List.range' c1 (L - c1) := by
      have h1 : L - c0 = (L - c1) + (c1 - c0) := by omega
      rw [h1, ← List.range'_append]
      have h2 : c0 + 1 * (c1 - c0) = c1 := by omega
      rw [h2]
    have hvar : varlenAttn e scale q k v (c0 :: c1 :: rest) =
        blockAttn e scale (sliceRows q c0 c1) (sliceRows k c0 c1) (sliceRows v c0 c1) ++
          varlenAttn e scale q k v (c1 :: rest) := by
      simp [varlenAttn, segmentsOf]
    rw [hvar, varlenAttn_eq_rows e scale (c1 :: rest) q k v hmono' hq hk hv]
    simp only [List.getD_cons_zero]
    rw [hLdef, hsplit, List.map_append]
    congr 1
    · unfold blockAttn
      have hqs : sliceRows q c0 c1 =
          (List.range' c0 (c1 - c0)).map (fun i => q.getD i 0) := by
        unfold sliceRows
        exact slice_eq_map_range' 0 q (by omega)
      rw [hqs, List.map_map]
      apply List.map_congr_left
      intro i hi
      rw [List.mem_range'_1] at hi
      have hi1 : i < c1 := by omega
      have hmask : (fun j => sameSegB (c0 :: c1 :: rest) i j) =
          (fun j => decide (c0 ≤ j) && decide (j < c1)) :=
        funext (sameSegB_interval hmono hi.1 hi1)
      simp only [Function.comp]
      rw [hmask]
      exact attnRow_slice_eq_maskedRow e scale (q.getD i 0) k v hc01 (by omega) (by omega)
    · apply List.map_congr_left
      intro i hi
      rw [List.mem_range'_1] at hi
      have hmask : (fun j => sameSegB (c1 :: rest) i j) =
          (fun j => sameSegB (c0 :: c1 :: rest) i j) :=
        funext (fun j => (sameSegB_shift hmono hi.1 j).symm)
      rw [hmask]

/-- C9: for identical weights and inputs, the fused variable-length attention
strategy — per-segment bidirectional attention over the packed buffer with
`cumulative_seq_lengths` as segment boundaries, shared softmax scale, no
causal mask — produces exactly the same rows as the generic masked-attention
strategy whose mask restricts every token to its own request (exact equality
over rationals; floating-point tolerance is subsumed). -/
theorem claim_C9 {H : Nat} (e : ℚ → ℚ) (scale : ℚ) (q k v : List (Vec H))
    (cu : List Nat)
    (hcu0 : cu.getD 0 0 = 0)
    (hmono : ∀ m < cu.length - 1, cu.getD m 0 ≤ cu.getD (m + 1) 0)
    (hq : q.length = cu.getD (cu.length - 1) 0)
    (hk : k.length = cu.getD (cu.length - 1) 0)
    (hv : v.length = cu.getD (cu.length - 1) 0) :
    varlenAttn e scale q k v cu = maskedAttn e scale q k v cu := by
  have hmono' : ∀ m, m + 1 < cu.length → cu.getD m 0 ≤ cu.getD (m + 1) 0 :=
    fun m hm => hmono m (by omega)
  rw [varlenAttn_eq_rows e scale cu q k v hmono' (le_of_eq hq.symm) (le_of_eq hk.symm)
    (le_of_eq hv.symm)]
  unfold maskedAttn
  rw [hq, hcu0, Nat.sub_zero, List.range_eq_range']

/-- Witness for C9: both attention strategies agree on a concrete packed
two-segment batch. -/
theorem claim_C9_witness :
    (([0, 2, 3] : List Nat).getD 0 0 = 0 ∧
      (∀ m < ([0, 2, 3] : List Nat).length - 1,
        ([0, 2, 3] : List Nat).getD m 0 ≤ ([0, 2, 3] : List Nat).getD (m + 1) 0) ∧
      wOutputs.length = ([0, 2, 3] : List Nat).getD (([0, 2, 3] : List Nat).length - 1) 0) ∧
    varlenAttn wE 1 wOutputs wOutputs wOutputs [0, 2, 3] =
      maskedAttn wE 1 wOutputs wOutputs wOutputs [0, 2, 3] :=
  ⟨⟨by decide, by decide, by decide⟩,
    claim_C9 wE 1 wOutputs wOutputs wOutputs [0, 2, 3] (by decide) (by decide)
      (by decide) (by decide) (by decide)⟩

end TEI
